import Mathlib

/-!
Verification development for the re-execute file watcher.

This file gives a shallow embedding, in Lean, of the change-filtering engine
(the gitignore-style pattern compiler and matcher of `src/files/git.rs`, the
simpler substring matcher of `src/files/utils.rs`, the extension and hidden
filters) and of the debounce dispatch queue (`src/command/queue.rs`,
`src/args.rs`), together with theorems about their behaviour.

Strings from the Rust side are modelled as `List Char` (Rust iterates `chars()`
in these functions; the backtracking split loop indexes bytes, which coincides
with chars on ASCII input). Filesystem access (reading ignore files, walking
directories, checking file existence) is parameterised away: functions take the
collected rule sets, or an existence predicate, as explicit arguments.
-/

set_option maxRecDepth 10000

/-- Tokens of a compiled gitignore pattern, from `GitIgnoreRuleElements` in
`src/files/git.rs`. -/
inductive GitIgnoreRuleElements where
  /-- A literal string, with escapes removed -/
  | Literal : List Char → GitIgnoreRuleElements
  /-- Directory separator -/
  | Slash
  /-- Single asterisk -/
  | Asterisk
  /-- Double asterisk -/
  | DoubleAsterisk
  /-- Single character wildcard -/
  | QuestionMark
  /-- Character range, negation flag plus list of inclusive ranges -/
  | CharRange : Bool → List (Char × Char) → GitIgnoreRuleElements
deriving DecidableEq, Repr

/-- A compiled gitignore rule, from `GitIgnoreRule` in `src/files/git.rs`. -/
structure GitIgnoreRule where
  pattern : List GitIgnoreRuleElements
  is_negated : Bool
  match_all_levels : Bool
  dirs_only : Bool
deriving DecidableEq, Repr

/-- The trailing-space trimming loop of `GitIgnoreRule::from_str`: walking the
line in reverse, while the current character is a space, count it unless the
character before it exists and is a backslash. Input is the reversed line. -/
def spacesToTrim : List Char → Nat
  | ' ' :: rest =>
    (match rest with
     | c :: _ => if c = '\\' then 0 else 1
     | [] => 0) + spacesToTrim rest
  | _ => 0

/-- Literal-run accumulation of the tokenizer: take characters until one of
the special characters `/ * ? [ \` is reached. -/
def takeLit : List Char → List Char × List Char
  | [] => ([], [])
  | c :: rest =>
    if c = '/' || c = '*' || c = '?' || c = '[' || c = '\\' then ([], c :: rest)
    else
      let (run, rem) := takeLit rest
      (c :: run, rem)

/-- The character-range body parser of `GitIgnoreRule::from_str`: consume
characters until `]`, reading `a-z` pairs and single characters. -/
def parseRanges : List Char → List (Char × Char) × List Char
  | [] => ([], [])
  | c :: rest =>
    if c = ']' then ([], rest)
    else
      match rest with
      | '-' :: e :: rest2 =>
        ((c, e) :: (parseRanges rest2).1, (parseRanges rest2).2)
      | '-' :: [] => ([], [])
      | other =>
        ((c, c) :: (parseRanges other).1, (parseRanges other).2)
termination_by l => l.length
decreasing_by
  all_goals simp
  all_goals omega

/-- The tokenizer loop of `GitIgnoreRule::from_str` in `src/files/git.rs`. -/
def tokenize : List Char → List GitIgnoreRuleElements
  | [] => []
  | '\\' :: rest =>
    match rest with
    | e :: rest2 => .Literal [e] :: tokenize rest2
    | [] => []
  | '/' :: rest => .Slash :: tokenize rest
  | '*' :: rest =>
    match rest with
    | '*' :: rest2 => .DoubleAsterisk :: tokenize rest2
    | other => .Asterisk :: tokenize other
  | '?' :: rest => .QuestionMark :: tokenize rest
  | '[' :: rest =>
    let negated := rest.head? = some '!' || rest.head? = some '^'
    let body := if negated then rest.tail else rest
    .CharRange negated (parseRanges body).1 :: tokenize (parseRanges body).2
  | c :: rest =>
    .Literal (c :: (takeLit rest).1) :: tokenize (takeLit rest).2
termination_by l => l.length
decreasing_by
  all_goals simp
  all_goals try omega
  · have hpr : ∀ l : List Char, (parseRanges l).2.length ≤ l.length := by
      intro l
      induction l using parseRanges.induct with
      | case1 => simp [parseRanges]
      | case2 r2 => rw [parseRanges.eq_def]; simp
      | case3 c2 h e rest2 ih =>
        simp only [parseRanges, if_neg h]
        simp only [List.length_cons]
        omega
      | case4 c2 h => simp [parseRanges, h]
      | case5 c2 h other h1 h2 ih =>
        simp only [parseRanges, if_neg h]
        simp only [List.length_cons]
        omega
    have h1 := hpr (if rest.head? = some '!' ∨ rest.head? = some '^' then rest.tail else rest)
    have h2 : (if rest.head? = some '!' ∨ rest.head? = some '^' then rest.tail else rest).length ≤ rest.length := by
      split
      · cases rest <;> simp
      · exact le_refl _
    omega
  · have h1 : (takeLit rest).2.length ≤ rest.length := by
      induction rest with
      | nil => simp [takeLit]
      | cons c2 r2 ih =>
        simp only [takeLit]
        split
        · simp
        · simpa using Nat.le_succ_of_le ih
    omega

/-- `GitIgnoreRule::from_str` in `src/files/git.rs`: compile one raw line into
a rule, or nothing for blank lines and comments. -/
def GitIgnoreRule.from_str (line : List Char) : Option GitIgnoreRule :=
  if line.isEmpty || line.head? = some '#' then none
  else
    let is_negated := line.head? = some '!'
    let match_all_levels := ((line.take (line.length - 1)).filter (fun c => c = '/')).length = 0
    let dirs_only := line.getLast? = some '/'
    let line1 := if is_negated then line.tail else line
    let trim := spacesToTrim line1.reverse
    let line2 := line1.take (line1.length - trim)
    some ⟨tokenize line2, is_negated, match_all_levels, dirs_only⟩

mutual

/-- `GitIgnoreRule::string_matches` in `src/files/git.rs`: entry point,
including the preamble that pops a leading `Slash` token (relative-mode
marker, empty remainder rejected) together with a leading `/` of the
candidate. -/
def string_matches (dirsOnly : Bool) (rules : List GitIgnoreRuleElements) (chars : List Char) : Bool :=
  match rules with
  | .Slash :: rest =>
    if rest.isEmpty then false
    else
      match chars with
      | '/' :: cs => smLoop dirsOnly rest cs
      | cs => smLoop dirsOnly rest cs
  | [] => smLoop dirsOnly [] chars
  | r :: rest => smLoop dirsOnly (r :: rest) chars
termination_by (rules.length, 1, chars.length)

/-- The token-consuming `while` loop of `GitIgnoreRule::string_matches`,
one arm per token kind, ending with the end-of-tokens check of lines 370-376
of `src/files/git.rs`. -/
def smLoop (dirsOnly : Bool) (rules : List GitIgnoreRuleElements) (chars : List Char) : Bool :=
  match rules with
  | [] =>
    match chars with
    | [] => true
    | c :: _ => dirsOnly || c = '/'
  | .Literal l :: rest =>
    if l.isPrefixOf chars then smLoop dirsOnly rest (chars.drop l.length) else false
  | .Slash :: rest =>
    match chars with
    | [] => if rest.isEmpty then smLoop dirsOnly rest [] else false
    | c :: cs => if c = '/' then smLoop dirsOnly rest cs else false
  | .Asterisk :: rest =>
    if rest.isEmpty then
      if chars.isEmpty then false
      else smLoop dirsOnly rest (chars.dropWhile (fun c => ¬ (c = '/')))
    else
      match chars with
      | '/' :: _ => false
      | _ => asteriskSplits dirsOnly rest chars
  | .DoubleAsterisk :: rest =>
    if rest.isEmpty then true
    else if ¬ (chars.contains '/') then true
    else if string_matches dirsOnly rest chars then true
    else stripDirs dirsOnly rest chars
  | .QuestionMark :: rest =>
    match chars with
    | [] => false
    | c :: cs => if c = '/' then false else smLoop dirsOnly rest cs
  | .CharRange negated ranges :: rest =>
    match chars with
    | [] => false
    | c :: cs =>
      let matched := ranges.any (fun r => r.1 ≤ c && c ≤ r.2)
      if (matched && negated) || (!matched && !negated) then false
      else smLoop dirsOnly rest cs
termination_by (rules.length, 0, chars.length)

/-- The backtracking split loop of the `Asterisk` arm (lines 294-299 of
`src/files/git.rs`): try the remaining tokens against each nonempty suffix of
the remaining candidate, in order. -/
def asteriskSplits (dirsOnly : Bool) (rest : List GitIgnoreRuleElements) (chars : List Char) : Bool :=
  match chars with
  | [] => false
  | c :: cs => string_matches dirsOnly rest (c :: cs) || asteriskSplits dirsOnly rest cs
termination_by (rest.length, 2, chars.length)

/-- The directory-stripping loop of the `DoubleAsterisk` arm (lines 329-336 of
`src/files/git.rs`): retry the remaining tokens at each suffix that starts at
a `/` of the candidate (the slash kept at the front of the suffix). -/
def stripDirs (dirsOnly : Bool) (rest : List GitIgnoreRuleElements) (chars : List Char) : Bool :=
  match chars with
  | [] => false
  | c :: cs =>
    if c = '/' then string_matches dirsOnly rest (c :: cs) || stripDirs dirsOnly rest cs
    else stripDirs dirsOnly rest cs
termination_by (rest.length, 2, chars.length)

end

/-- All suffixes of a list, longest first (the nonempty ones model the byte
positions a Rust substring search walks through). -/
def allSuffixes : List Char → List (List Char)
  | [] => [[]]
  | c :: cs => (c :: cs) :: allSuffixes cs

/-- Substring containment, modelling Rust `str::contains`. -/
def substrOf (needle hay : List Char) : Bool :=
  (allSuffixes hay).any (fun s => needle.isPrefixOf s)

/-- First-occurrence search, modelling Rust `str::find`: index of the first
position where `needle` occurs in `hay`. -/
def findSub (hay needle : List Char) : Option Nat :=
  if needle.isPrefixOf hay then some 0
  else
    match hay with
    | [] => none
    | _ :: t => (findSub t needle).map (fun n => n + 1)

/-- Drop the characters of a path up to and including its first slash,
modelling `current = &current[i + 1..]` after `current.find('/')` in
`GitIgnoreRule::file_matches`, and nothing when there is no slash. -/
def dropSeg : List Char → Option (List Char)
  | [] => none
  | c :: cs => if c = '/' then some cs else dropSeg cs

/-- The `match_all_levels` loop of `GitIgnoreRule::file_matches` in
`src/files/git.rs`: try the match at the full relative path, then at each
suffix obtained by dropping one leading path segment. -/
def matchLevels (r : GitIgnoreRule) (chars : List Char) : Bool :=
  if string_matches r.dirs_only r.pattern chars then true
  else
    match h : dropSeg chars with
    | some cs => matchLevels r cs
    | none => false
termination_by chars.length
decreasing_by
  have hd : ∀ l cs : List Char, dropSeg l = some cs → cs.length < l.length := by
    intro l
    induction l with
    | nil => intro cs hcs; simp [dropSeg] at hcs
    | cons c t ih =>
      intro cs hcs
      simp only [dropSeg] at hcs
      split at hcs
      · cases hcs; simp
      · exact Nat.lt_succ_of_lt (ih cs hcs)
  exact hd chars cs h

/-- Component-wise path prefix removal, modelling Rust `Path::strip_prefix`
(components are the slash-separated pieces; duplicate-separator
normalisation is not modelled). -/
def stripPathLead (file dir : List Char) : Option (List Char) :=
  let fc := file.splitOn '/'
  let dc := dir.splitOn '/'
  if dc.isPrefixOf fc then some (List.intercalate ['/'] (fc.drop dc.length)) else none

/-- `GitIgnoreRule::file_matches` in `src/files/git.rs`: take the part of the
file relative to the dir (no match when the file is not under the dir), then
match at all levels or once depending on `match_all_levels`. -/
def GitIgnoreRule.file_matches (r : GitIgnoreRule) (file dir : List Char) : Bool :=
  match stripPathLead file dir with
  | none => false
  | some candidate =>
    if r.match_all_levels then matchLevels r candidate
    else string_matches r.dirs_only r.pattern candidate

/-- A parsed ignore file of the tokenising matcher: `GitIgnoreRules` in
`src/files/git.rs` (its `rule_path` is the path the rules were loaded from). -/
structure GitIgnoreRules where
  rules : List GitIgnoreRule
  rule_path : List Char

/-- `is_git_ignored` of `src/files/git.rs` (lines 5-44), parameterised by the
already-collected rule sets (the source collects them from the filesystem
via `GitIgnoreRules::from_dir`). First pass scans negated rules and returns
false on a match; the second pass scans non-negated rules and also returns
false on a match (the commented-out code below it returns true); otherwise
false. -/
def is_git_ignored_git (abs_path : List Char) (all_rules : List GitIgnoreRules) : Bool :=
  if all_rules.any (fun irs => irs.rules.any
      (fun r => r.is_negated && r.file_matches abs_path irs.rule_path)) then false
  else if all_rules.any (fun irs => irs.rules.any
      (fun r => !r.is_negated && r.file_matches abs_path irs.rule_path)) then false
  else false

/-- A raw ignore rule of the simple matcher: `IgnoreRule` in
`src/files/utils.rs`. -/
structure IgnoreRule where
  pattern : List Char
  is_negated : Bool

/-- A parsed ignore file of the simple matcher: `IgnoreRules` in
`src/files/utils.rs`. -/
structure IgnoreRules where
  rules : List IgnoreRule
  rule_path : List Char

/-- The wildcard scanning loop of `matches_rule` in `src/files/utils.rs`:
find each part (the pattern split on `*`) in order, each search starting
where the previous found part ended. -/
def partsScan (s : List Char) (parts : List (List Char)) : Bool :=
  match parts with
  | [] => true
  | part :: rest =>
    match findSub s part with
    | some i => partsScan (s.drop (i + part.length)) rest
    | none => false

/-- `matches_rule` in `src/files/utils.rs`: strip the dir from the file (fall
back to the full file when it is not under the dir); with a `*` in the
pattern, scan the `*`-separated parts in order, else plain substring
containment. -/
def matches_rule (file : List Char) (rule : IgnoreRule) (dir : List Char) : Bool :=
  let file_str := match stripPathLead file dir with
    | some c => c
    | none => file
  if rule.pattern.contains '*' then partsScan file_str (rule.pattern.splitOn '*')
  else substrOf rule.pattern file_str

/-- `is_git_ignored` of `src/files/utils.rs` (lines 153-183), parameterised
by the already-collected rule sets (the source collects them from the
filesystem via `collect_ignore_rules`). First pass: any matching negated
rule means not ignored; second pass: any matching non-negated rule means
ignored; otherwise not ignored. -/
def is_git_ignored_utils (abs_path : List Char) (all_rules : List IgnoreRules) : Bool :=
  if all_rules.any (fun irs => irs.rules.any
      (fun r => r.is_negated && matches_rule abs_path r irs.rule_path)) then false
  else if all_rules.any (fun irs => irs.rules.any
      (fun r => !r.is_negated && matches_rule abs_path r irs.rule_path)) then true
  else false

/-- Modelled from the spec, for comparison with the `DoubleAsterisk` arm of
`string_matches`: the remaining tokens must match the full remaining
candidate unmodified, or match some candidate suffix obtained by repeatedly
stripping one leading path segment until no segments remain. -/
def specStripSegs (dirsOnly : Bool) (rest : List GitIgnoreRuleElements) (chars : List Char) : Bool :=
  string_matches dirsOnly rest chars ||
    match h : dropSeg chars with
    | some cs => specStripSegs dirsOnly rest cs
    | none => false
termination_by chars.length
decreasing_by
  have hd : ∀ l cs : List Char, dropSeg l = some cs → cs.length < l.length := by
    intro l
    induction l with
    | nil => intro cs hcs; simp [dropSeg] at hcs
    | cons c t ih =>
      intro cs hcs
      simp only [dropSeg] at hcs
      split at hcs
      · cases hcs; simp
      · exact Nat.lt_succ_of_lt (ih cs hcs)
  exact hd chars cs h

/-- The file-name component of a path: the characters after the last slash,
modelling Rust `Path::file_name` on the paths handled here (dot and
dot-dot components are treated by the callers below). -/
def fileNameChars (p : List Char) : List Char :=
  (p.reverse.takeWhile (fun c => ¬ (c = '/'))).reverse

/-- The characters after the last dot at position one or later, modelling the
`rposition` search of Rust `split_file_at_dot` over `name[1..]`. -/
def lastDotSplit : List Char → Option (List Char)
  | [] => none
  | c :: cs =>
    match lastDotSplit cs with
    | some a => some a
    | none => if c = '.' then some cs else none

/-- Rust `Path::extension` on a file name: none for `..`, none when there is
no dot after the first character, else the characters after the last dot. -/
def extensionChars (name : List Char) : Option (List Char) :=
  if name = ['.', '.'] then none
  else
    match name with
    | [] => none
    | _ :: rest => lastDotSplit rest

/-- The decision part of `extension_matches` in `src/files/utils.rs` once the
extension has been taken: a missing extension is allowed exactly when some
allowed entry is empty, and an extension is allowed when its lowercased form
is in the allow-list. -/
def ext_decision : Option (List Char) → List (List Char) → Bool
  | none, allowed => allowed.any (fun e => e.isEmpty)
  | some ext, allowed => allowed.contains (ext.map Char.toLower)

/-- `extension_matches` in `src/files/utils.rs`: true on an empty allow-list,
else decided from the filename's extension. -/
def extension_matches (filename : List Char) (allowed_extensions : List (List Char)) : Bool :=
  if allowed_extensions.isEmpty then true
  else ext_decision (extensionChars (fileNameChars filename)) allowed_extensions

/-- `is_file_hidden` in `src/files/utils.rs` on a path given as components:
the base name starts with a dot (`Path::file_name` yields no base name for a
path ending in a dot-dot component; the Windows attribute branch is not
modelled). -/
def is_file_hidden (path : List String) : Bool :=
  match path.getLast? with
  | some b => if b = ".." then false else b.toList.head? = some '.'
  | none => false

/-- `is_hidden` in `src/files/utils.rs` on paths given as components: walk
from the file upward, checking each basename, stopping (exclusive) at the
watch root or when the path cannot be popped further. -/
def is_hidden (filename watch : List String) : Bool :=
  if is_file_hidden filename then true
  else if filename.isEmpty then false
  else
    if filename.dropLast = watch then false
    else is_hidden filename.dropLast watch
termination_by filename.length
decreasing_by
  rename_i h1 h2
  have h3 : 0 < filename.length := by
    rw [List.length_pos]
    intro hh
    rw [hh] at h1
    simp at h1
  have h4 : filename.dropLast.length = filename.length - 1 := by simp
  omega

/-- Decidable equality for `Except`, used to evaluate validation results on
concrete inputs. -/
instance {ε α : Type} [DecidableEq ε] [DecidableEq α] : DecidableEq (Except ε α) := fun x y =>
  match x, y with
  | .error e, .error f => decidable_of_iff (e = f) (by simp)
  | .error _, .ok _ => .isFalse (by simp)
  | .ok _, .error _ => .isFalse (by simp)
  | .ok a, .ok b => decidable_of_iff (a = b) (by simp)

/-- Errors raised by configuration validation: `ProgramErrors` in
`src/errors.rs`, restricted to the variants `Args::validate` raises. -/
inductive ProgramErrors where
  | EmptyCommand
  | CommandParseError : String → String → ProgramErrors
deriving DecidableEq, Repr

/-- The single-file placeholder `FILE_SUBSTITUTION` of `src/args.rs`. -/
def FILE_SUBSTITUTION : String := "{file}"

/-- The multi-file placeholder `FILES_SUBSTITUTION` of `src/args.rs`. -/
def FILES_SUBSTITUTION : String := "{files}"

/-- The fields of `Args` in `src/args.rs` that `Args::validate` reads or
writes (watch/filter/report flags that validation leaves untouched are
omitted). -/
structure Args where
  files : List String
  command : List String
  extensions : List String
  abort_previous : Bool
  shell : String
  batch_exec : Bool
deriving DecidableEq, Repr

/-- `Args::validate` in `src/args.rs`: lowercase the extensions and strip a
leading dot, default the watch list to the current directory, reject an
empty command, join the command words, derive `batch_exec` from the absence
of the single-file placeholder, reject a command holding both placeholders,
force `abort_previous` when no placeholder is present, collapse the command
into one string and fill in the default shell. -/
def Args.validate (a : Args) : Except ProgramErrors Args :=
  let exts := a.extensions.map (fun s =>
    let low := s.toList.map Char.toLower
    String.mk (if low.head? = some '.' then low.tail else low))
  let fs := if a.files.isEmpty then ["."] else a.files
  if a.command.isEmpty then .error .EmptyCommand
  else
    let command := String.mk (List.intercalate [' '] (a.command.map (fun s => s.toList)))
    let batch_exec := !(substrOf (FILE_SUBSTITUTION.toList) command.toList)
    if substrOf (FILES_SUBSTITUTION.toList) command.toList then
      if !batch_exec then
        .error (.CommandParseError command
          "Command cannot contain both substitutions")
      else
        .ok { a with extensions := exts, files := fs, command := [command],
                     batch_exec := batch_exec, shell := "sh -c" }
    else if batch_exec then
      .ok { a with extensions := exts, files := fs, command := [command],
                   batch_exec := batch_exec, abort_previous := true, shell := "sh -c" }
    else
      .ok { a with extensions := exts, files := fs, command := [command],
                   batch_exec := batch_exec, shell := "sh -c" }

/-- One dispatched command of the queue: its `command_number` and the paths
substituted into the invocation (the `p` vector of `Queue::execute`). -/
structure Invocation where
  command_number : Nat
  paths : List String
deriving DecidableEq, Repr

/-- The fields of `Queue` in `src/command/queue.rs` that `Queue::execute`
reads or writes, with the pending `HashSet<(PathBuf, PathBuf)>` modelled as
a list in iteration order. -/
structure QueueState where
  files : List (String × String)
  batch_exec : Bool
  deleted_files : Bool
  command_count : Nat
deriving DecidableEq, Repr

/-- `Queue::execute` in `src/command/queue.rs`, parameterised by a path
existence predicate (the source asks the filesystem): error on an empty
queue; drop deleted files unless they are tracked and stop when nothing
remains; in per-file mode take one pending entry and dispatch it alone, in
batch mode drain the whole set into one dispatch; number the dispatch with
the current `command_count` and increment it. -/
def Queue.execute (exists? : String → Bool) (s : QueueState) : Except Unit (QueueState × Option Invocation) :=
  if s.files.isEmpty then .error ()
  else
    match (if s.deleted_files then s.files else s.files.filter (fun x => exists? x.1)) with
    | [] => .ok ({ s with files := [] }, none)
    | x :: restFiles =>
      if s.batch_exec then
        .ok ({ s with files := [], command_count := s.command_count + 1 },
          some ⟨s.command_count, (x :: restFiles).map (fun y => y.1)⟩)
      else
        .ok ({ s with files := restFiles, command_count := s.command_count + 1 },
          some ⟨s.command_count, [x.1]⟩)

/-- The invocations one `Queue::execute` call dispatches: one or none. -/
def Queue.flushInvocations (exists? : String → Bool) (s : QueueState) : List Invocation :=
  match Queue.execute exists? s with
  | .ok (_, some inv) => [inv]
  | _ => []

/-- The run loop of `Queue::run` restricted to its dispatch behaviour: keep
calling `Queue::execute` on elapsed ticks while dispatches keep coming
(the loop stops executing once the pending set is drained), collecting the
dispatched invocations in order. -/
def Queue.drive (exists? : String → Bool) (s : QueueState) : List Invocation :=
  match h : Queue.execute exists? s with
  | .error _ => []
  | .ok (_, none) => []
  | .ok (s2, some inv) => inv :: Queue.drive exists? s2
termination_by s.files.length
decreasing_by
  rw [Queue.execute] at h
  split at h
  · simp at h
  · rename_i hne
    have hflen : 0 < s.files.length := by
      rw [List.length_pos]
      intro hh
      simp [hh] at hne
    have hk : (if s.deleted_files = true then s.files else List.filter (fun x => exists? x.1) s.files).length ≤ s.files.length := by
      split
      · exact le_refl _
      · exact List.length_filter_le _ _
    revert h
    generalize hg : (if s.deleted_files = true then s.files else List.filter (fun x => exists? x.1) s.files) = kept at hk ⊢
    intro h
    cases kept with
    | nil => simp at h
    | cons x restF =>
      cases hb : s.batch_exec with
      | true =>
        simp [hb] at h
        rw [← h.1]
        simpa using hflen
      | false =>
        simp [hb] at h
        rw [← h.1]
        simp at hk ⊢
        omega

/-- Messages handled by `Queue::run` in `src/command/queue.rs`, with the
elapsed-quiet-window tick made explicit (its `Abort` arm, which only breaks
the loop, is omitted). -/
inductive QueueOp where
  | addFile : String → String → QueueOp
  | restartBackoff : QueueOp
  | flushTick : (String → Bool) → QueueOp

/-- One iteration of the `Queue::run` loop: `AddFile` inserts into the
pending set (re-adding an existing pair coalesces), `RestartBackoff` only
touches the timestamp, and an elapsed tick runs `Queue::execute`. -/
def applyOp (s : QueueState) : QueueOp → QueueState × List Invocation
  | .addFile p w =>
    ({ s with files := if s.files.contains (p, w) then s.files else s.files ++ [(p, w)] }, [])
  | .restartBackoff => (s, [])
  | .flushTick exists? =>
    match Queue.execute exists? s with
    | .error _ => (s, [])
    | .ok (s2, none) => (s2, [])
    | .ok (s2, some inv) => (s2, [inv])

/-- Run a sequence of queue-loop iterations, collecting all dispatched
invocations in dispatch order. -/
def runOps (s : QueueState) : List QueueOp → QueueState × List Invocation
  | [] => (s, [])
  | op :: ops =>
    let (s2, invs) := applyOp s op
    let (s3, rest) := runOps s2 ops
    (s3, invs ++ rest)

/-- The queue state `Queue::start` in `src/command/queue.rs` builds: empty
pending set, `command_count` zero, modes copied from the validated
arguments. -/
def Queue.startState (batch_exec deleted_files : Bool) : QueueState :=
  ⟨[], batch_exec, deleted_files, 0⟩

unseal parseRanges tokenize string_matches smLoop asteriskSplits stripDirs
unseal matchLevels specStripSegs is_hidden Queue.drive

/-- C1: the ignore-rule evaluation is claimed to return ignored exactly when
no negated rule matches and some non-negated rule matches. On the single
rule set holding the one non-negated rule `*.log` (which does match the
changed path `/w/a.log`, third conjunct), the tokenising evaluation
`is_git_ignored` of `src/files/git.rs` returns not-ignored — its second pass
returns `false` on a non-negated match where the commented-out code below it
returns `true` — while the evaluation of `src/files/utils.rs` used by
`should_be_ignored` returns ignored, as the claim states. -/
theorem c1_second_pass_divergence :
    (match GitIgnoreRule.from_str (String.toList "*.log") with
     | some r => is_git_ignored_git (String.toList "/w/a.log") [⟨[r], String.toList "/w"⟩]
     | none => true) = false
    ∧ is_git_ignored_utils (String.toList "/w/a.log")
        [⟨[⟨String.toList "*.log", false⟩], String.toList "/w"⟩] = true
    ∧ (match GitIgnoreRule.from_str (String.toList "*.log") with
       | some r => !r.is_negated && r.file_matches (String.toList "/w/a.log") (String.toList "/w")
       | none => false) = true := by
  exact ⟨by decide, by decide, by decide⟩

/-- C3: the matcher is claimed never to let a single `*` consume a slash:
with tokens remaining after an `Asterisk`, split points should stay inside
the current segment. The split loop of lines 294-299 of `src/files/git.rs`
iterates over every position of the remaining candidate, so pattern `a*b`
does match candidate `ax/yb`, the `*` consuming `x/y` across a slash (first
two conjuncts); only the immediate next-character check (third conjunct,
candidate `/yb`) respects the segment boundary. -/
theorem c3_asterisk_split_crosses_slash :
    (match GitIgnoreRule.from_str (String.toList "a*b") with
     | some r => string_matches r.dirs_only r.pattern (String.toList "ax/yb")
     | none => false) = true
    ∧ smLoop false [.Literal ['a'], .Asterisk, .Literal ['b']] (String.toList "ax/yb") = true
    ∧ smLoop false [.Asterisk, .Literal ['b']] (String.toList "/yb") = false := by
  exact ⟨by decide, by decide, by decide⟩

/-- C4: a `DoubleAsterisk` with tokens remaining is claimed to succeed
exactly when the remaining tokens match the remaining candidate or a
segment-stripped suffix of it (`specStripSegs`). The arm of lines 303-339 of
`src/files/git.rs` instead returns a match outright whenever the remaining
candidate contains no slash: pattern `**/foo` matches candidate `bar`
although `/foo` matches neither `bar` nor any stripped suffix. -/
theorem c4_double_asterisk_shortcut :
    (match GitIgnoreRule.from_str (String.toList "**/foo") with
     | some r => string_matches r.dirs_only r.pattern (String.toList "bar")
     | none => false) = true
    ∧ smLoop false [.DoubleAsterisk, .Slash, .Literal (String.toList "foo")]
        (String.toList "bar") = true
    ∧ specStripSegs false [.Slash, .Literal (String.toList "foo")] (String.toList "bar") = false := by
  exact ⟨by decide, by decide, by decide⟩

/-- C6: when all tokens are consumed, the match succeeds exactly when the
candidate is fully consumed, `dirs_only` is set, or the next unconsumed
character is a slash (first part); hence at the final `Slash` token of a
pattern ending in `/` (which sets `dirs_only`), the match succeeds exactly
when the unconsumed remainder is empty or starts with a slash (second
part). -/
theorem c6_end_of_tokens :
    (∀ (d : Bool) (chars : List Char),
      smLoop d [] chars = true ↔ (chars = [] ∨ d = true ∨ chars.head? = some '/'))
    ∧ ∀ chars : List Char,
      smLoop true [.Slash] chars = true ↔ (chars = [] ∨ chars.head? = some '/') := by
  constructor
  · intro d chars
    cases chars with
    | nil => simp [smLoop]
    | cons c cs =>
      simp [smLoop]
  · intro chars
    cases chars with
    | nil => simp [smLoop]
    | cons c cs =>
      by_cases hc : c = '/'
      · subst hc
        cases cs <;> simp [smLoop]
      · simp [smLoop, hc]

/-- C7 counterexample: the allow-list `[""]` is claimed to accept exactly the
extensionless files, yet the filename `foo.` is accepted although its
extension is not missing (it is the empty extension `some []`, as Rust
`Path::extension` yields for a name ending in a dot). -/
theorem c7_counterexample_trailing_dot :
    extension_matches (String.toList "foo.") [[]] = true
    ∧ ¬ (extensionChars (fileNameChars (String.toList "foo.")) = none) := by
  exact ⟨by decide, by decide⟩

/-- C7 amended: an empty allow-list accepts every file; the allow-list `[""]`
accepts exactly the files whose extension is missing or empty (a name ending
in a dot); and the comparison of a present extension against the allow-list
is case-insensitive in the file's extension — it depends only on the
lowercased extension. -/
theorem c7_extension_matches_amended :
    (∀ f : List Char, extension_matches f [] = true)
    ∧ (∀ f : List Char, extension_matches f [[]] = true ↔
        (extensionChars (fileNameChars f) = none ∨ extensionChars (fileNameChars f) = some []))
    ∧ ∀ (allowed : List (List Char)) (e1 e2 : List Char),
        e1.map Char.toLower = e2.map Char.toLower →
        ext_decision (some e1) allowed = ext_decision (some e2) allowed := by
  refine ⟨fun f => by simp [extension_matches], fun f => ?_, fun allowed e1 e2 h => ?_⟩
  · simp only [extension_matches, List.isEmpty_cons, ext_decision]
    cases h : extensionChars (fileNameChars f) with
    | none => simp [ext_decision]
    | some e =>
      simp [ext_decision, List.contains, List.map_eq_nil_iff]
  · simp only [ext_decision, h]

/-- C7 witness: the case-insensitivity part applied to the extension `TXT`
against the validated allow-list entry `txt`. -/
theorem c7_extension_matches_amended_witness :
    ext_decision (some (String.toList "TXT")) [String.toList "txt"] =
      ext_decision (some (String.toList "txt")) [String.toList "txt"] :=
  c7_extension_matches_amended.2.2 [String.toList "txt"]
    (String.toList "TXT") (String.toList "txt") (by decide)

/-- C5: validation of a non-empty command template fails exactly when the
joined template contains both the single-file placeholder and the multi-file
placeholder; with only one placeholder, or neither, it returns a validated
configuration. -/
theorem c5_both_placeholders_rejected (a : Args) (hc : a.command ≠ []) :
    a.validate.isOk = false ↔
      (substrOf (FILE_SUBSTITUTION.toList)
          (List.intercalate [' '] (a.command.map (fun s => s.toList))) = true
       ∧ substrOf (FILES_SUBSTITUTION.toList)
          (List.intercalate [' '] (a.command.map (fun s => s.toList))) = true) := by
  have hce : a.command.isEmpty = false := by simpa using hc
  cases hfi : substrOf (FILE_SUBSTITUTION.data)
      (List.intercalate [' '] (a.command.map (fun s => s.data))) <;>
    cases hfs : substrOf (FILES_SUBSTITUTION.data)
        (List.intercalate [' '] (a.command.map (fun s => s.data))) <;>
    simp [Args.validate, hce, hfi, hfs, Except.isOk, Except.toBool,
      show ∀ s : String, s.toList = s.data from fun _ => rfl]

/-- C5 witness: the theorem applied to the template `run {file} {files}`. -/
theorem c5_both_placeholders_rejected_witness :
    (Args.mk [] ["run {file} {files}"] [] false "" false).validate.isOk = false ↔
      (substrOf (FILE_SUBSTITUTION.toList)
          (List.intercalate [' '] ((["run {file} {files}"] : List String).map (fun s => s.toList))) = true
       ∧ substrOf (FILES_SUBSTITUTION.toList)
          (List.intercalate [' '] ((["run {file} {files}"] : List String).map (fun s => s.toList))) = true) :=
  c5_both_placeholders_rejected (Args.mk [] ["run {file} {files}"] [] false "" false) (by decide)

/-- C10: when validation succeeds, a template containing neither placeholder
comes out with `abort_previous` forced to true, and a template containing
the multi-file placeholder comes out with `abort_previous` exactly as
configured. -/
theorem c10_abort_previous_forcing (a r : Args) (h : a.validate = .ok r) :
    ((substrOf (FILE_SUBSTITUTION.toList)
        (List.intercalate [' '] (a.command.map (fun s => s.toList))) = false
      ∧ substrOf (FILES_SUBSTITUTION.toList)
        (List.intercalate [' '] (a.command.map (fun s => s.toList))) = false) →
      r.abort_previous = true)
    ∧ (substrOf (FILES_SUBSTITUTION.toList)
        (List.intercalate [' '] (a.command.map (fun s => s.toList))) = true →
      r.abort_previous = a.abort_previous) := by
  cases hce : a.command.isEmpty with
  | true =>
    rw [Args.validate] at h
    simp [hce] at h
  | false =>
    cases hfi : substrOf (FILE_SUBSTITUTION.data)
        (List.intercalate [' '] (a.command.map (fun s => s.data))) <;>
      cases hfs : substrOf (FILES_SUBSTITUTION.data)
          (List.intercalate [' '] (a.command.map (fun s => s.data))) <;>
      rw [Args.validate] at h <;>
      simp [hce, hfi, hfs,
        show ∀ s : String, s.toList = s.data from fun _ => rfl] at h ⊢ <;>
      (try rw [← h])

/-- C10 witness: the theorem applied to the bare template `echo` (abort
forced on) and to `echo {files}` (abort left as configured, here off). -/
theorem c10_abort_previous_forcing_witness :
    (Args.mk [] ["echo"] [] false "" false).validate =
      .ok (Args.mk ["."] ["echo"] [] true "sh -c" true)
    ∧ (Args.mk ["."] ["echo"] [] true "sh -c" true).abort_previous = true
    ∧ (Args.mk ["."] ["echo {files}"] [] false "sh -c" true).abort_previous =
        (Args.mk [] ["echo {files}"] [] false "" false).abort_previous :=
  ⟨by decide,
   (c10_abort_previous_forcing (Args.mk [] ["echo"] [] false "" false)
      (Args.mk ["."] ["echo"] [] true "sh -c" true) (by decide)).1 (by decide),
   (c10_abort_previous_forcing (Args.mk [] ["echo {files}"] [] false "" false)
      (Args.mk ["."] ["echo {files}"] [] false "sh -c" true) (by decide)).2 (by decide)⟩

theorem execute_kept_eq (e : String → Bool) (s : QueueState)
    (hex : ∀ x ∈ s.files, e x.1 = true) :
    (if s.deleted_files = true then s.files else s.files.filter (fun x => e x.1)) = s.files := by
  split
  · rfl
  · exact List.filter_eq_self.mpr hex

theorem execute_perfile_cons (e : String → Bool) (s : QueueState) (x : String × String)
    (r : List (String × String)) (hb : s.batch_exec = false) (hf : s.files = x :: r)
    (hex : ∀ y ∈ s.files, e y.1 = true) :
    Queue.execute e s = .ok ({ s with files := r, command_count := s.command_count + 1 },
      some ⟨s.command_count, [x.1]⟩) := by
  rw [Queue.execute, execute_kept_eq e s hex, hf]
  simp [hb]

theorem execute_batch_drains (e : String → Bool) (s : QueueState)
    (hb : s.batch_exec = true) (hex : ∀ y ∈ s.files, e y.1 = true) (hne : s.files ≠ []) :
    Queue.execute e s = .ok ({ s with files := [], command_count := s.command_count + 1 },
      some ⟨s.command_count, s.files.map (fun y => y.1)⟩) := by
  obtain ⟨x, r, hf⟩ : ∃ x r, s.files = x :: r := by
    cases hc : s.files with
    | nil => exact absurd hc hne
    | cons x r => exact ⟨x, r, rfl⟩
  rw [Queue.execute, execute_kept_eq e s hex, hf]
  simp [hb]

theorem drive_eq (e : String → Bool) (s : QueueState) :
    Queue.drive e s = (match Queue.execute e s with
      | .ok (s2, some inv) => inv :: Queue.drive e s2
      | _ => []) := by
  rw [Queue.drive]
  rcases hq : Queue.execute e s with u | ⟨s2, oi⟩
  · rfl
  · cases oi <;> rfl

/-- C2 counterexample: in per-file mode with two pending paths (and deletion
tracking on, so nothing is filtered), one `Queue::execute` call — one Flush —
dispatches exactly one invocation and leaves one path pending, not the two
invocations the claim requires of a single Flush. -/
theorem c2_counterexample_single_dispatch :
    (QueueState.mk [("a", "w"), ("b", "w")] false true 0).batch_exec = false
    ∧ (QueueState.mk [("a", "w"), ("b", "w")] false true 0).files.length = 2
    ∧ (Queue.flushInvocations (fun _ => true)
        (QueueState.mk [("a", "w"), ("b", "w")] false true 0)).length = 1
    ∧ Queue.execute (fun _ => true) (QueueState.mk [("a", "w"), ("b", "w")] false true 0)
        = .ok (QueueState.mk [("b", "w")] false true 1, some ⟨0, ["a"]⟩) := by
  exact ⟨by decide, by decide, by decide, by decide⟩

/-- C2 amended: in per-file mode each Flush dispatches exactly one invocation
carrying one pending path; the run loop keeps flushing while paths remain, so
a pending set of N existing paths yields N invocations, each with one path,
numbered consecutively from the current count in dispatch order; in batch
mode one Flush dispatches exactly one invocation draining the entire set. -/
theorem c2_dispatch_granularity :
    (∀ (e : String → Bool) (s : QueueState), s.batch_exec = false →
      (∀ x ∈ s.files, e x.1 = true) →
      (Queue.drive e s).map (fun i => i.paths) = s.files.map (fun x => [x.1]) ∧
      (Queue.drive e s).map (fun i => i.command_number) =
        List.range' s.command_count s.files.length)
    ∧ ∀ (e : String → Bool) (s : QueueState), s.batch_exec = true →
      (∀ x ∈ s.files, e x.1 = true) → s.files ≠ [] →
      Queue.execute e s = .ok ({ s with files := [], command_count := s.command_count + 1 },
        some ⟨s.command_count, s.files.map (fun x => x.1)⟩) := by
  constructor
  · intro e s hb hex
    have main : ∀ (fs : List (String × String)) (t : QueueState), t.files = fs →
        t.batch_exec = false → (∀ x ∈ t.files, e x.1 = true) →
        (Queue.drive e t).map (fun i => i.paths) = t.files.map (fun x => [x.1]) ∧
        (Queue.drive e t).map (fun i => i.command_number) =
          List.range' t.command_count t.files.length := by
      intro fs
      induction fs with
      | nil =>
        intro t hf hb2 hex2
        rw [drive_eq, Queue.execute]
        simp [hf]
      | cons x r ih =>
        intro t hf hb2 hex2
        have hstep := execute_perfile_cons e t x r hb2 hf hex2
        rw [drive_eq, hstep]
        have ih2 := ih { t with files := r, command_count := t.command_count + 1 } rfl
          (by simp [hb2])
          (by
            intro y hy
            exact hex2 y (by rw [hf]; exact List.mem_cons_of_mem _ hy))
        constructor
        · simp only [List.map_cons, hf]
          rw [ih2.1]
        · simp only [List.map_cons, hf, List.length_cons]
          rw [List.range'_succ]
          rw [ih2.2]
    exact main s.files s rfl hb hex
  · intro e s hb hex hne
    exact execute_batch_drains e s hb hex hne

/-- C2 witness: the amended theorem applied to a per-file queue with two
pending paths and to a batch queue with the same two paths. -/
theorem c2_dispatch_granularity_witness :
    ((Queue.drive (fun _ => true) (QueueState.mk [("a", "w"), ("b", "w")] false true 0)).map
        (fun i => i.paths) =
      (QueueState.mk [("a", "w"), ("b", "w")] false true 0).files.map (fun x => [x.1]))
    ∧ Queue.execute (fun _ => true) (QueueState.mk [("a", "w"), ("b", "w")] true true 0)
        = .ok ({ QueueState.mk [("a", "w"), ("b", "w")] true true 0 with
            files := [],
            command_count := (QueueState.mk [("a", "w"), ("b", "w")] true true 0).command_count + 1 },
          some ⟨(QueueState.mk [("a", "w"), ("b", "w")] true true 0).command_count,
            (QueueState.mk [("a", "w"), ("b", "w")] true true 0).files.map (fun x => x.1)⟩) :=
  ⟨(c2_dispatch_granularity.1 (fun _ => true)
      (QueueState.mk [("a", "w"), ("b", "w")] false true 0) (by decide)
      (by intro x hx; rfl)).1,
   c2_dispatch_granularity.2 (fun _ => true)
      (QueueState.mk [("a", "w"), ("b", "w")] true true 0) (by decide)
      (by intro x hx; rfl) (by decide)⟩

theorem execute_count_spec (e : String → Bool) (s : QueueState) :
    (∀ s2, Queue.execute e s = .ok (s2, none) → s2.command_count = s.command_count)
    ∧ (∀ s2 inv, Queue.execute e s = .ok (s2, some inv) →
        inv.command_number = s.command_count ∧ s2.command_count = s.command_count + 1) := by
  rw [Queue.execute]
  split
  · constructor
    · intro s2 h
      simp at h
    · intro s2 inv h
      simp at h
  · generalize (if s.deleted_files = true then s.files else List.filter (fun x => e x.1) s.files) = kept
    cases kept with
    | nil =>
      constructor
      · intro s2 h
        simp at h
        rw [← h]
      · intro s2 inv h
        simp at h
    | cons x restF =>
      cases hb : s.batch_exec with
      | true =>
        constructor
        · intro s2 h
          simp [hb] at h
        · intro s2 inv h
          simp [hb] at h
          exact ⟨by rw [← h.2], by rw [← h.1]⟩
      | false =>
        constructor
        · intro s2 h
          simp [hb] at h
        · intro s2 inv h
          simp [hb] at h
          exact ⟨by rw [← h.2], by rw [← h.1]⟩

theorem runOps_count_spec (ops : List QueueOp) : ∀ s : QueueState,
    (runOps s ops).2.map (fun i => i.command_number) =
      List.range' s.command_count (runOps s ops).2.length
    ∧ (runOps s ops).1.command_count = s.command_count + (runOps s ops).2.length := by
  induction ops with
  | nil => intro s; simp [runOps]
  | cons op ops ih =>
    intro s
    cases op with
    | addFile p w =>
      simp only [runOps, applyOp]
      simpa using ih _
    | restartBackoff =>
      simp only [runOps, applyOp]
      simpa using ih _
    | flushTick e =>
      simp only [runOps, applyOp]
      cases hq : Queue.execute e s with
      | error u => simpa using ih s
      | ok pair =>
        obtain ⟨s2, oi⟩ := pair
        cases oi with
        | none =>
          have hc := (execute_count_spec e s).1 s2 hq
          have ih2 := ih s2
          simp only [List.nil_append]
          rw [hc] at ih2
          simpa using ih2
        | some inv =>
          obtain ⟨hn, hcc⟩ := (execute_count_spec e s).2 s2 inv hq
          have ih2 := ih s2
          rw [hcc] at ih2
          simp only [List.cons_append, List.nil_append, List.map_cons, List.length_cons]
          constructor
          · rw [List.range'_succ, hn, ih2.1]
          · rw [ih2.2]
            omega

/-- C9: from the state `Queue::start` builds (count zero), any sequence of
queue-loop iterations dispatches invocations whose `command_number`s are
exactly 0, 1, 2, … in dispatch order — starting at 0, strictly increasing,
never reused. -/
theorem c9_command_numbers (batch deleted : Bool) (ops : List QueueOp) :
    (runOps (Queue.startState batch deleted) ops).2.map (fun i => i.command_number) =
      List.range ((runOps (Queue.startState batch deleted) ops).2.length) := by
  have h := (runOps_count_spec ops (Queue.startState batch deleted)).1
  rw [List.range_eq_range']
  simpa [Queue.startState] using h

/-- C8: for a file strictly below the watch root, given as the watch root's
components followed by the components from the root down to the file (all of
them ordinary names, not `..`, `.` or empty), `is_hidden` reports hidden
exactly when some component strictly below the watch root starts with a dot;
components at or above the watch root never influence the result. -/
theorem c8_hidden_below_watch_root (watch rest : List String) (hne : rest ≠ [])
    (hcomp : ∀ c ∈ rest, c ≠ "" ∧ c ≠ "." ∧ c ≠ "..") :
    is_hidden (watch ++ rest) watch = rest.any (fun c => c.toList.head? = some '.') := by
  induction rest using List.reverseRecOn with
  | nil => exact absurd rfl hne
  | append_singleton init l ih =>
    have hl := hcomp l (by simp)
    rw [← List.append_assoc]
    rw [is_hidden]
    have hfh : is_file_hidden ((watch ++ init) ++ [l]) = decide (l.data.head? = some '.') := by
      simp [is_file_hidden, List.getLast?_concat, hl.2.2]
    rw [hfh]
    by_cases hd : l.data.head? = some '.'
    · simp [hd]
    · simp only [hd, decide_False, Bool.false_eq_true, if_false]
      have hnil : ((watch ++ init) ++ [l]).isEmpty = false := by simp
      rw [hnil]
      simp only [Bool.false_eq_true, if_false, List.dropLast_concat]
      by_cases hi : init = []
      · subst hi
        simp [hd]
      · have hwi : ¬ (watch ++ init = watch) := by
          intro hh
          apply hi
          have h2 : watch ++ init = watch ++ [] := by simpa using hh
          exact List.append_cancel_left h2
        rw [if_neg hwi]
        rw [ih hi (fun c hc => hcomp c (by simp [hc]))]
        simp [hd]

/-- C8 witness: the theorem applied to the watch root `home/user` and the
relative components `.config/app.toml`, where the hidden directory below the
root makes the file hidden. -/
theorem c8_hidden_below_watch_root_witness :
    is_hidden (["home", "user"] ++ [".config", "app.toml"]) ["home", "user"] =
      [".config", "app.toml"].any (fun c => c.toList.head? = some '.') :=
  c8_hidden_below_watch_root ["home", "user"] [".config", "app.toml"] (by decide)
    (by decide)
